import Mathlib

/-!
Verification of the turn parser / serializer of the obsidian-buddy plugin.

The source (`main.ts`) processes a markdown document as the list of its
lines (split on the newline character) and extracts a sequence of
role-tagged chat messages.  Assistant turns are delimited by fenced code
blocks tagged `buddy`; everything else accumulates into user turns.
The serializer (`messageToMd`) renders one message back into the fenced
notation.

Strings are modelled as `List Char`.  JavaScript's `\s` character class
(used by `sanitizeContent` and by both fence regexes) is modelled by
`jsWhitespace`.  The `throw new Error(...)` in the parser is modelled by
`Except.error` (the accompanying `new Notice(...)` is UI glue with no
bearing on the returned value).
-/

/-- JavaScript regex `\s` character class (ECMA-262 WhiteSpace ∪ LineTerminator). -/
def jsWhitespace (c : Char) : Bool :=
  c = ' ' || c = '\t' || c = '\n' || c.toNat = 0x0B || c.toNat = 0x0C ||
  c = '\r' || c.toNat = 0xA0 || c.toNat = 0x1680 ||
  (0x2000 ≤ c.toNat && c.toNat ≤ 0x200A) ||
  c.toNat = 0x2028 || c.toNat = 0x2029 || c.toNat = 0x202F ||
  c.toNat = 0x205F || c.toNat = 0x3000 || c.toNat = 0xFEFF

/-- Source: `const sanitizeContent = (s) => s.replace(/^\s+|\s+$/g, "")` —
drop the leading run and the trailing run of whitespace characters. -/
def sanitizeContent (s : List Char) : List Char :=
  ((s.dropWhile jsWhitespace).reverse.dropWhile jsWhitespace).reverse

/-- One chat message: a role tag (`"system"`, `"user"` or `"assistant"`)
and its text content. -/
structure Message where
  role : String
  content : List Char
deriving DecidableEq, Repr

/-- JavaScript `md.split("\n")`: split a string into lines at each newline
character; always returns at least one (possibly empty) line. -/
def splitLines : List Char → List (List Char)
  | [] => [[]]
  | c :: cs =>
      if c = '\n' then [] :: splitLines cs
      else (c :: (splitLines cs).headD []) :: (splitLines cs).tail

/-- Source regex `/^```buddy\s*$/`: three backticks immediately followed by
the literal tag `buddy`, then only whitespace. -/
def isOpenFence (line : List Char) : Bool :=
  line.take 8 == "```buddy".data && (line.drop 8).all jsWhitespace

/-- Source regex `/^```\s*$/`: three backticks followed only by whitespace. -/
def isCloseFence (line : List Char) : Bool :=
  line.take 3 == "```".data && (line.drop 3).all jsWhitespace

/-- Source: ``content = content ? `${content}\n${line}` : line`` — append a
line to the accumulated content (a `null` or empty accumulator is replaced). -/
def appOpt : Option (List Char) → List Char → List Char
  | some c, line => if c ≠ [] then c ++ '\n' :: line else line
  | none, line => line

/-- The parser's mutable state: the messages pushed so far and the two
accumulator variables `role` and `content` (both nullable in the source). -/
structure ParseState where
  messages : List Message
  role : Option String
  content : Option (List Char)
deriving DecidableEq, Repr

/-- Initial parser state: `messages = []`, `role = null`, `content = null`. -/
def initState : ParseState := ⟨[], none, none⟩

/-- Source: the inner `updateMessages` closure — if `content` is non-null and
its sanitization is non-empty, push the message and reset both accumulator
variables; otherwise leave the state unchanged. -/
def updateMessages (st : ParseState) : ParseState :=
  match st.content with
  | none => st
  | some c =>
      let sc := sanitizeContent c
      if sc ≠ [] then
        { messages := st.messages ++ [⟨st.role.getD "", sc⟩], role := none, content := none }
      else st

/-- Source: one iteration of the `while (lines.length > 0)` loop, processing
a single line in order of the four branches of the `if`/`else if` chain. -/
def stepLine (st : ParseState) (line : List Char) : ParseState :=
  if st.role ≠ some "assistant" ∧ isOpenFence line = true then
    { updateMessages st with role := some "assistant" }
  else if st.role = some "assistant" ∧ isCloseFence line = true then
    { updateMessages st with role := some "user" }
  else if st.role = none then
    { st with role := some "user", content := some line }
  else
    { st with content := some (appOpt st.content line) }

/-- Source: the code after the loop — with non-null `content` and `role`,
an assistant accumulator throws, a user accumulator is flushed. -/
def finalize (st : ParseState) : Except String (List Message) :=
  match st.content, st.role with
  | some _, some r =>
      if r = "assistant" then .error "buddy code block has no end"
      else .ok (updateMessages st).messages
  | _, _ => .ok st.messages

/-- The parser state after consuming every line of the document. -/
def finalState (md : List Char) : ParseState :=
  (splitLines md).foldl stepLine initState

/-- Source: `const gptMessages = (md) => ...` — the whole parser. -/
def gptMessages (md : List Char) : Except String (List Message) :=
  finalize (finalState md)

/-- Source: `const messageToMd = (m) => ...` — the serializer:
`` `\n```buddy\n${m.content}\n``` `` for assistant turns, `\n${m.content}`
otherwise. -/
def messageToMd (m : Message) : List Char :=
  if m.role = "assistant" then
    '\n' :: ("```buddy".data ++ '\n' :: (m.content ++ '\n' :: "```".data))
  else
    '\n' :: m.content

/-- The fence pattern that would cut a stored turn short were it re-parsed:
the close fence for an assistant turn, the open fence for any other role. -/
def fenceFor (r : String) (line : List Char) : Bool :=
  if r = "assistant" then isCloseFence line else isOpenFence line

/-- A string consisting only of whitespace characters. -/
def wsOnly (l : List Char) : Prop := ∀ c ∈ l, jsWhitespace c = true

/-- Every line of an accumulating content is harmless for the current role
(no close fence inside an assistant accumulator, no open fence inside a
user accumulator). -/
def RawGood (r : String) (c : List Char) : Prop :=
  ∀ l ∈ splitLines c, fenceFor r l = false

/-- Invariants of every message emitted by the parser: a `user`/`assistant`
role, non-empty sanitized-fixed content, and no fence pattern on any line
of the content after the first. -/
def GoodMsg (m : Message) : Prop :=
  (m.role = "user" ∨ m.role = "assistant") ∧
  sanitizeContent m.content = m.content ∧
  m.content ≠ [] ∧
  ∀ l ∈ (splitLines m.content).tail, fenceFor m.role l = false

/-- Invariant of the parser state maintained across the line loop. -/
def ParseInv (st : ParseState) : Prop :=
  (∀ m ∈ st.messages, GoodMsg m) ∧
  (∀ r, st.role = some r → r = "user" ∨ r = "assistant") ∧
  (st.content ≠ none → st.role ≠ none) ∧
  (∀ c, st.content = some c → RawGood (st.role.getD "") c)

/-! ### Lemmas about `splitLines` -/

theorem splitLines_ne_nil (s : List Char) : splitLines s ≠ [] := by
  cases s with
  | nil => simp [splitLines]
  | cons c cs => by_cases h : c = '\n' <;> simp [splitLines, h]

theorem splitLines_cons_newline (cs : List Char) :
    splitLines ('\n' :: cs) = [] :: splitLines cs := by
  simp [splitLines]

theorem splitLines_cons_of_ne (c : Char) (cs : List Char) (h : c ≠ '\n') :
    splitLines (c :: cs) = (c :: (splitLines cs).headD []) :: (splitLines cs).tail := by
  simp [splitLines, h]

theorem exists_cons_splitLines (s : List Char) :
    ∃ h t, splitLines s = h :: t := by
  cases hs : splitLines s with
  | nil => exact absurd hs (splitLines_ne_nil s)
  | cons a b => exact ⟨a, b, rfl⟩

theorem splitLines_append (x y : List Char) :
    splitLines (x ++ '\n' :: y) = splitLines x ++ splitLines y := by
  induction x with
  | nil => simp [splitLines]
  | cons c cs ih =>
      by_cases h : c = '\n'
      · subst h
        simp only [List.cons_append, splitLines_cons_newline, ih]
      · obtain ⟨hh, t, hht⟩ := exists_cons_splitLines cs
        simp only [List.cons_append, splitLines_cons_of_ne c _ h, ih, hht]
        simp

theorem splitLines_no_newline (s : List Char) (h : '\n' ∉ s) : splitLines s = [s] := by
  induction s with
  | nil => rfl
  | cons c cs ih =>
      have hc : c ≠ '\n' := fun hc => h (hc ▸ List.mem_cons_self c cs)
      have hcs : '\n' ∉ cs := fun hm => h (List.mem_cons_of_mem c hm)
      rw [splitLines_cons_of_ne c cs hc, ih hcs]
      rfl

theorem no_newline_of_mem_splitLines (s l : List Char) (h : l ∈ splitLines s) : '\n' ∉ l := by
  induction s generalizing l with
  | nil =>
      simp [splitLines] at h
      simp [h]
  | cons c cs ih =>
      by_cases hc : c = '\n'
      · subst hc
        rw [splitLines_cons_newline] at h
        rcases List.mem_cons.mp h with h1 | h2
        · simp [h1]
        · exact ih l h2
      · rw [splitLines_cons_of_ne c cs hc] at h
        obtain ⟨hh, t, hht⟩ := exists_cons_splitLines cs
        rw [hht] at h
        rcases List.mem_cons.mp h with h1 | h2
        · subst h1
          intro hmem
          rcases List.mem_cons.mp hmem with h3 | h4
          · exact hc h3.symm
          · have hhh : hh ∈ splitLines cs := by rw [hht]; exact List.mem_cons_self hh t
            exact ih hh hhh (by simpa [hht] using h4)
        · have hl : l ∈ splitLines cs := by
            rw [hht]
            exact List.mem_cons_of_mem hh (by simpa [hht] using h2)
          exact ih l hl

theorem chars_of_mem_splitLines (s l : List Char) (h : l ∈ splitLines s) :
    ∀ ch ∈ l, ch ∈ s := by
  induction s generalizing l with
  | nil =>
      simp [splitLines] at h
      simp [h]
  | cons c cs ih =>
      by_cases hc : c = '\n'
      · subst hc
        rw [splitLines_cons_newline] at h
        rcases List.mem_cons.mp h with h1 | h2
        · simp [h1]
        · exact fun ch hch => List.mem_cons_of_mem _ (ih l h2 ch hch)
      · rw [splitLines_cons_of_ne c cs hc] at h
        obtain ⟨hh, t, hht⟩ := exists_cons_splitLines cs
        rw [hht] at h
        rcases List.mem_cons.mp h with h1 | h2
        · subst h1
          intro ch hch
          rcases List.mem_cons.mp hch with h3 | h4
          · simp [h3]
          · have : ch ∈ cs := ih hh (by rw [hht]; exact List.mem_cons_self hh t) ch (by simpa using h4)
            exact List.mem_cons_of_mem c this
        · intro ch hch
          have : l ∈ splitLines cs := by rw [hht]; exact List.mem_cons_of_mem hh (by simpa using h2)
          exact List.mem_cons_of_mem c (ih l this ch hch)

/-! ### Lemmas about whitespace and `sanitizeContent` -/

theorem headD_append_of_ne_nil (u v : List Char) (d : Char) (h : u ≠ []) :
    (u ++ v).headD d = u.headD d := by
  cases u with
  | nil => exact absurd rfl h
  | cons a l => rfl

theorem headD_mem (l : List (List Char)) (h : l ≠ []) : l.headD [] ∈ l := by
  cases l with
  | nil => exact absurd rfl h
  | cons a t => exact List.mem_cons_self a t

theorem dropWhile_headD_not (p : Char → Bool) (l : List Char) (h : l.dropWhile p ≠ []) :
    p ((l.dropWhile p).headD ' ') = false := by
  induction l with
  | nil => simp at h
  | cons c cs ih =>
      by_cases hc : p c = true
      · rw [List.dropWhile_cons, if_pos hc] at h ⊢
        exact ih h
      · rw [List.dropWhile_cons, if_neg hc]
        simpa using hc

theorem dropWhile_eq_self_of_headD (p : Char → Bool) (l : List Char)
    (h : p (l.headD ' ') = false) : l.dropWhile p = l := by
  cases l with
  | nil => rfl
  | cons c cs =>
      rw [List.dropWhile_cons, if_neg]
      simp [List.headD] at h
      simp [h]

theorem wsOnly_reverse (l : List Char) (h : wsOnly l) : wsOnly l.reverse := by
  intro c hc
  exact h c (List.mem_reverse.mp hc)

theorem wsOnly_takeWhile_ws (l : List Char) : wsOnly (l.takeWhile jsWhitespace) := by
  intro c hc
  exact List.mem_takeWhile_imp hc

theorem sanitize_prefix_decomp (s : List Char) :
    s.dropWhile jsWhitespace
      = sanitizeContent s ++ ((s.dropWhile jsWhitespace).reverse.takeWhile jsWhitespace).reverse := by
  have hd : ((s.dropWhile jsWhitespace).reverse.takeWhile jsWhitespace)
      ++ ((s.dropWhile jsWhitespace).reverse.dropWhile jsWhitespace)
      = (s.dropWhile jsWhitespace).reverse :=
    List.takeWhile_append_dropWhile _ _
  calc s.dropWhile jsWhitespace
      = (s.dropWhile jsWhitespace).reverse.reverse := (List.reverse_reverse _).symm
    _ = (((s.dropWhile jsWhitespace).reverse.takeWhile jsWhitespace)
          ++ ((s.dropWhile jsWhitespace).reverse.dropWhile jsWhitespace)).reverse := by rw [hd]
    _ = sanitizeContent s ++ ((s.dropWhile jsWhitespace).reverse.takeWhile jsWhitespace).reverse := by
          rw [List.reverse_append]; rfl

theorem sanitize_decomp (s : List Char) :
    ∃ a b, s = a ++ sanitizeContent s ++ b ∧ wsOnly a ∧ wsOnly b := by
  refine ⟨s.takeWhile jsWhitespace,
    ((s.dropWhile jsWhitespace).reverse.takeWhile jsWhitespace).reverse,
    ?_, wsOnly_takeWhile_ws s, wsOnly_reverse _ (wsOnly_takeWhile_ws _)⟩
  rw [List.append_assoc]
  calc s = s.takeWhile jsWhitespace ++ s.dropWhile jsWhitespace :=
        (List.takeWhile_append_dropWhile jsWhitespace s).symm
    _ = _ := congrArg (fun t => s.takeWhile jsWhitespace ++ t) (sanitize_prefix_decomp s)

theorem wsOnly_of_sanitize_eq_nil (s : List Char) (h : sanitizeContent s = []) : wsOnly s := by
  obtain ⟨a, b, hs, ha, hb⟩ := sanitize_decomp s
  rw [h] at hs
  intro c hc
  rw [hs] at hc
  simp at hc
  rcases hc with hc | hc
  · exact ha c hc
  · exact hb c hc

theorem sanitize_headD_not_ws (s : List Char) (h : sanitizeContent s ≠ []) :
    jsWhitespace ((sanitizeContent s).headD ' ') = false := by
  have hdec := sanitize_prefix_decomp s
  have hdematch : (s.dropWhile jsWhitespace).headD ' ' = (sanitizeContent s).headD ' ' := by
    rw [hdec]
    exact headD_append_of_ne_nil _ _ ' ' h
  have hne : s.dropWhile jsWhitespace ≠ [] := by
    rw [hdec]
    intro hx
    exact h (List.append_eq_nil.mp hx).1
  rw [← hdematch]
  exact dropWhile_headD_not jsWhitespace s hne

theorem sanitize_reverse_headD_not_ws (s : List Char) (h : sanitizeContent s ≠ []) :
    jsWhitespace ((sanitizeContent s).reverse.headD ' ') = false := by
  have hrev : (sanitizeContent s).reverse
      = (s.dropWhile jsWhitespace).reverse.dropWhile jsWhitespace := by
    simp [sanitizeContent]
  rw [hrev]
  apply dropWhile_headD_not
  rw [← hrev]
  simpa using h

theorem sanitize_idem (s : List Char) :
    sanitizeContent (sanitizeContent s) = sanitizeContent s := by
  by_cases h : sanitizeContent s = []
  · rw [h]; rfl
  · have h1 : (sanitizeContent s).dropWhile jsWhitespace = sanitizeContent s :=
      dropWhile_eq_self_of_headD _ _ (sanitize_headD_not_ws s h)
    have h2 : (sanitizeContent s).reverse.dropWhile jsWhitespace = (sanitizeContent s).reverse :=
      dropWhile_eq_self_of_headD _ _ (by
        have := sanitize_reverse_headD_not_ws s h
        simpa using this)
    show (((sanitizeContent s).dropWhile jsWhitespace).reverse.dropWhile jsWhitespace).reverse
        = sanitizeContent s
    rw [h1, h2, List.reverse_reverse]

/-! ### Characterization of the fence patterns -/

theorem isOpenFence_iff (l : List Char) :
    isOpenFence l = true ↔ ∃ w, l = "```buddy".data ++ w ∧ wsOnly w := by
  constructor
  · intro h
    simp only [isOpenFence, Bool.and_eq_true, beq_iff_eq, List.all_eq_true] at h
    obtain ⟨h1, h2⟩ := h
    refine ⟨l.drop 8, ?_, fun c hc => h2 c hc⟩
    conv_lhs => rw [← List.take_append_drop 8 l]
    rw [h1]
  · rintro ⟨w, rfl, hw⟩
    have hlen : ("```buddy".data).length = 8 := rfl
    simp only [isOpenFence, Bool.and_eq_true, beq_iff_eq, List.all_eq_true]
    refine ⟨by rw [← hlen, List.take_left], ?_⟩
    rw [← hlen, List.drop_left]
    exact fun c hc => hw c hc

theorem isCloseFence_iff (l : List Char) :
    isCloseFence l = true ↔ ∃ w, l = "```".data ++ w ∧ wsOnly w := by
  constructor
  · intro h
    simp only [isCloseFence, Bool.and_eq_true, beq_iff_eq, List.all_eq_true] at h
    obtain ⟨h1, h2⟩ := h
    refine ⟨l.drop 3, ?_, fun c hc => h2 c hc⟩
    conv_lhs => rw [← List.take_append_drop 3 l]
    rw [h1]
  · rintro ⟨w, rfl, hw⟩
    have hlen : ("```".data).length = 3 := rfl
    simp only [isCloseFence, Bool.and_eq_true, beq_iff_eq, List.all_eq_true]
    refine ⟨by rw [← hlen, List.take_left], ?_⟩
    rw [← hlen, List.drop_left]
    exact fun c hc => hw c hc

theorem open_not_close (l : List Char) (h : isOpenFence l = true) : isCloseFence l = false := by
  rcases (isOpenFence_iff l).mp h with ⟨w, rfl, _⟩
  have hdrop : List.drop 3 ("```buddy".data ++ w) = 'b' :: 'u' :: 'd' :: 'd' :: 'y' :: w := rfl
  have hb : jsWhitespace 'b' = false := by decide
  simp only [isCloseFence, hdrop, List.all_cons, hb, Bool.false_and, Bool.and_false]

theorem close_not_open (l : List Char) (h : isCloseFence l = true) : isOpenFence l = false := by
  rcases (isCloseFence_iff l).mp h with ⟨w, rfl, hw⟩
  cases hx : isOpenFence ("```".data ++ w) with
  | false => rfl
  | true =>
      rcases (isOpenFence_iff _).mp hx with ⟨w', he, _⟩
      have hwd : w = 'b' :: 'u' :: 'd' :: 'd' :: 'y' :: w' := by
        simpa using he
      have hb := hw 'b' (by rw [hwd]; exact List.mem_cons_self _ _)
      exact absurd hb (by decide)

theorem wsOnly_not_open (l : List Char) (h : wsOnly l) : isOpenFence l = false := by
  cases hx : isOpenFence l with
  | false => rfl
  | true =>
      rcases (isOpenFence_iff l).mp hx with ⟨w, rfl, _⟩
      have hm := h '`' (List.mem_append_left _ (by decide))
      exact absurd hm (by decide)

theorem wsOnly_not_close (l : List Char) (h : wsOnly l) : isCloseFence l = false := by
  cases hx : isCloseFence l with
  | false => rfl
  | true =>
      rcases (isCloseFence_iff l).mp hx with ⟨w, rfl, _⟩
      have hm := h '`' (List.mem_append_left _ (by decide))
      exact absurd hm (by decide)

theorem wsOnly_not_fenceFor (r : String) (l : List Char) (h : wsOnly l) :
    fenceFor r l = false := by
  unfold fenceFor
  by_cases hr : r = "assistant"
  · rw [if_pos hr]; exact wsOnly_not_close l h
  · rw [if_neg hr]; exact wsOnly_not_open l h

theorem open_append_ws (l w : List Char) (hw : wsOnly w) (h : isOpenFence l = true) :
    isOpenFence (l ++ w) = true := by
  rcases (isOpenFence_iff l).mp h with ⟨u, rfl, hu⟩
  refine (isOpenFence_iff _).mpr ⟨u ++ w, by rw [List.append_assoc], ?_⟩
  exact fun c hc => (List.mem_append.mp hc).elim (hu c) (hw c)

theorem close_append_ws (l w : List Char) (hw : wsOnly w) (h : isCloseFence l = true) :
    isCloseFence (l ++ w) = true := by
  rcases (isCloseFence_iff l).mp h with ⟨u, rfl, hu⟩
  refine (isCloseFence_iff _).mpr ⟨u ++ w, by rw [List.append_assoc], ?_⟩
  exact fun c hc => (List.mem_append.mp hc).elim (hu c) (hw c)

theorem fenceFor_of_append_ws (r : String) (l w : List Char) (hw : wsOnly w)
    (h : fenceFor r (l ++ w) = false) : fenceFor r l = false := by
  unfold fenceFor at h ⊢
  by_cases hr : r = "assistant"
  · rw [if_pos hr] at h ⊢
    cases hx : isCloseFence l with
    | false => rfl
    | true => rw [close_append_ws l w hw hx] at h; cases h
  · rw [if_neg hr] at h ⊢
    cases hx : isOpenFence l with
    | false => rfl
    | true => rw [open_append_ws l w hw hx] at h; cases h

/-! ### Tail lines of a sanitized accumulator -/

theorem mem_tail_splitLines (s l : List Char) (h : l ∈ (splitLines s).tail) :
    ∃ x y, s = x ++ '\n' :: y ∧ l = (splitLines y).headD [] := by
  induction s generalizing l with
  | nil => simp [splitLines] at h
  | cons c cs ih =>
      by_cases hc : c = '\n'
      · subst hc
        rw [splitLines_cons_newline] at h
        obtain ⟨hh, t, hht⟩ := exists_cons_splitLines cs
        rw [List.tail_cons, hht] at h
        rcases List.mem_cons.mp h with h1 | h2
        · exact ⟨[], cs, rfl, by rw [hht, h1]; rfl⟩
        · obtain ⟨x, y, hxy, hl⟩ := ih l (by rw [hht, List.tail_cons]; exact h2)
          exact ⟨'\n' :: x, y, by rw [hxy]; rfl, hl⟩
      · rw [splitLines_cons_of_ne c cs hc, List.tail_cons] at h
        obtain ⟨x, y, hxy, hl⟩ := ih l h
        exact ⟨c :: x, y, by rw [hxy]; rfl, hl⟩

theorem headD_splitLines_mem (x y : List Char) :
    (splitLines y).headD [] ∈ splitLines (x ++ '\n' :: y) := by
  rw [splitLines_append]
  exact List.mem_append_right _ (headD_mem _ (splitLines_ne_nil y))

theorem headD_splitLines_append_ws (y b : List Char) (hb : wsOnly b) :
    ∃ w, wsOnly w ∧ (splitLines (y ++ b)).headD [] = (splitLines y).headD [] ++ w := by
  induction y with
  | nil =>
      refine ⟨(splitLines b).headD [], ?_, by simp [splitLines]⟩
      intro c hc
      exact hb c (chars_of_mem_splitLines b _ (headD_mem _ (splitLines_ne_nil b)) c hc)
  | cons c cs ih =>
      by_cases hc : c = '\n'
      · subst hc
        refine ⟨[], fun c h => absurd h (List.not_mem_nil c), ?_⟩
        rw [List.cons_append, splitLines_cons_newline, splitLines_cons_newline]
        simp
      · obtain ⟨w, hw, hq⟩ := ih
        refine ⟨w, hw, ?_⟩
        rw [List.cons_append, splitLines_cons_of_ne c _ hc, splitLines_cons_of_ne c cs hc]
        simp only [List.headD_cons, List.cons_append]
        rw [hq]

theorem tail_splitLines_sanitize (P : List Char → Prop) (c : List Char)
    (hall : ∀ l ∈ splitLines c, P l)
    (hws : ∀ l w, wsOnly w → P (l ++ w) → P l) :
    ∀ l ∈ (splitLines (sanitizeContent c)).tail, P l := by
  intro l hl
  obtain ⟨a, b, hc, _, hb⟩ := sanitize_decomp c
  obtain ⟨x, y, hs, hlval⟩ := mem_tail_splitLines (sanitizeContent c) l hl
  have hc2 : c = (a ++ x) ++ '\n' :: (y ++ b) := by
    rw [hc, hs]
    simp [List.append_assoc]
  obtain ⟨w, hw, hle⟩ := headD_splitLines_append_ws y b hb
  have hmem : (splitLines (y ++ b)).headD [] ∈ splitLines c := by
    rw [hc2]; exact headD_splitLines_mem _ _
  have hPyb : P ((splitLines y).headD [] ++ w) := by
    rw [← hle]; exact hall _ hmem
  rw [hlval]
  exact hws _ w hw hPyb

/-! ### The parser invariant -/

theorem updateMessages_none (st : ParseState) (h : st.content = none) :
    updateMessages st = st := by
  unfold updateMessages
  rw [h]

theorem updateMessages_some_nil (st : ParseState) (c : List Char) (h : st.content = some c)
    (hn : sanitizeContent c = []) : updateMessages st = st := by
  unfold updateMessages
  rw [h]
  simp [hn]

theorem updateMessages_some_push (st : ParseState) (c : List Char) (h : st.content = some c)
    (hn : sanitizeContent c ≠ []) :
    updateMessages st
      = ⟨st.messages ++ [⟨st.role.getD "", sanitizeContent c⟩], none, none⟩ := by
  unfold updateMessages
  rw [h]
  simp [hn]

theorem push_good (st : ParseState) (c : List Char) (hInv : ParseInv st)
    (hc : st.content = some c) (hn : sanitizeContent c ≠ []) :
    GoodMsg ⟨st.role.getD "", sanitizeContent c⟩ := by
  obtain ⟨_, hrole, hcr, hraw⟩ := hInv
  have hrne : st.role ≠ none := hcr (by rw [hc]; exact fun hx => Option.noConfusion hx)
  obtain ⟨r, hr⟩ : ∃ r, st.role = some r := by
    cases hsr : st.role with
    | none => exact absurd hsr hrne
    | some r => exact ⟨r, rfl⟩
  have hgd : st.role.getD "" = r := by rw [hr]; rfl
  refine ⟨by rw [hgd]; exact hrole r hr, sanitize_idem c, hn, ?_⟩
  exact tail_splitLines_sanitize (fun l => fenceFor (st.role.getD "") l = false) c
    (hraw c hc) (fun l w hw hp => fenceFor_of_append_ws _ l w hw hp)

theorem rawGood_of_wsOnly (r : String) (c : List Char) (h : wsOnly c) : RawGood r c := by
  intro l hl
  exact wsOnly_not_fenceFor r l (fun ch hch => h ch (chars_of_mem_splitLines c l hl ch hch))

theorem rawGood_single (r : String) (line : List Char) (hnl : '\n' ∉ line)
    (h : fenceFor r line = false) : RawGood r line := by
  intro l hl
  rw [splitLines_no_newline line hnl] at hl
  simp at hl
  rw [hl]
  exact h

theorem rawGood_append (r : String) (c line : List Char) (hnl : '\n' ∉ line)
    (hc : RawGood r c) (h : fenceFor r line = false) : RawGood r (c ++ '\n' :: line) := by
  intro l hl
  rw [splitLines_append, splitLines_no_newline line hnl] at hl
  rcases List.mem_append.mp hl with h1 | h2
  · exact hc l h1
  · simp at h2
    rw [h2]
    exact h

theorem rawGood_appOpt (r : String) (o : Option (List Char)) (line : List Char)
    (hnl : '\n' ∉ line) (hc : ∀ c, o = some c → RawGood r c)
    (h : fenceFor r line = false) : RawGood r (appOpt o line) := by
  cases o with
  | none => exact rawGood_single r line hnl h
  | some c =>
      show RawGood r (if c ≠ [] then c ++ '\n' :: line else line)
      by_cases hce : c = []
      · rw [if_neg (by simpa using hce)]
        exact rawGood_single r line hnl h
      · rw [if_pos hce]
        exact rawGood_append r c line hnl (hc c rfl) h

theorem stepLine_inv (st : ParseState) (line : List Char) (hnl : '\n' ∉ line)
    (hInv : ParseInv st) : ParseInv (stepLine st line) := by
  obtain ⟨hmsgs, hrole, hcr, hraw⟩ := hInv
  unfold stepLine
  by_cases h1 : st.role ≠ some "assistant" ∧ isOpenFence line = true
  · rw [if_pos h1]
    cases hc : st.content with
    | none =>
        rw [updateMessages_none st hc]
        exact ⟨hmsgs, fun r hr => Or.inr (by injection hr with h; exact h.symm),
          fun _ => fun hx => Option.noConfusion hx,
          fun c hcc => absurd (hc ▸ hcc : (none : Option (List Char)) = some c)
            (fun hx => Option.noConfusion hx)⟩
    | some c =>
        by_cases hn : sanitizeContent c = []
        · rw [updateMessages_some_nil st c hc hn]
          refine ⟨hmsgs, fun r hr => Or.inr (by injection hr with h; exact h.symm),
            fun _ => fun hx => Option.noConfusion hx, ?_⟩
          intro c' hcc
          have hcc' : c' = c := by
            have : some c = some c' := by rw [← hc]; exact hcc
            injection this with h
            exact h.symm
          subst hcc'
          exact rawGood_of_wsOnly _ c' (wsOnly_of_sanitize_eq_nil c' hn)
        · rw [updateMessages_some_push st c hc hn]
          refine ⟨?_, fun r hr => Or.inr (by injection hr with h; exact h.symm),
            fun _ => fun hx => Option.noConfusion hx,
            fun c' hcc => Option.noConfusion hcc⟩
          intro m hm
          rcases List.mem_append.mp hm with h2 | h3
          · exact hmsgs m h2
          · simp at h3
            rw [h3]
            exact push_good st c ⟨hmsgs, hrole, hcr, hraw⟩ hc hn
  · rw [if_neg h1]
    by_cases h2 : st.role = some "assistant" ∧ isCloseFence line = true
    · rw [if_pos h2]
      cases hc : st.content with
      | none =>
          rw [updateMessages_none st hc]
          exact ⟨hmsgs, fun r hr => Or.inl (by injection hr with h; exact h.symm),
            fun _ => fun hx => Option.noConfusion hx,
            fun c hcc => absurd (hc ▸ hcc : (none : Option (List Char)) = some c)
              (fun hx => Option.noConfusion hx)⟩
      | some c =>
          by_cases hn : sanitizeContent c = []
          · rw [updateMessages_some_nil st c hc hn]
            refine ⟨hmsgs, fun r hr => Or.inl (by injection hr with h; exact h.symm),
              fun _ => fun hx => Option.noConfusion hx, ?_⟩
            intro c' hcc
            have hcc' : c' = c := by
              have : some c = some c' := by rw [← hc]; exact hcc
              injection this with h
              exact h.symm
            subst hcc'
            exact rawGood_of_wsOnly _ c' (wsOnly_of_sanitize_eq_nil c' hn)
          · rw [updateMessages_some_push st c hc hn]
            refine ⟨?_, fun r hr => Or.inl (by injection hr with h; exact h.symm),
              fun _ => fun hx => Option.noConfusion hx,
              fun c' hcc => Option.noConfusion hcc⟩
            intro m hm
            rcases List.mem_append.mp hm with h3 | h4
            · exact hmsgs m h3
            · simp at h4
              rw [h4]
              exact push_good st c ⟨hmsgs, hrole, hcr, hraw⟩ hc hn
    · rw [if_neg h2]
      by_cases h3 : st.role = none
      · rw [if_pos h3]
        refine ⟨hmsgs, fun r hr => Or.inl (by injection hr with h; exact h.symm),
          fun _ => fun hx => Option.noConfusion hx, ?_⟩
        intro c hcc
        have hcl : c = line := by
          injection hcc with h
          exact h.symm
        subst hcl
        have hop : isOpenFence c = false := by
          cases hx : isOpenFence c with
          | false => rfl
          | true => exact absurd ⟨by rw [h3]; exact fun hy => Option.noConfusion hy, hx⟩ h1
        have hres : RawGood "user" c := by
          refine rawGood_single "user" c hnl ?_
          unfold fenceFor
          rw [if_neg (by decide : ("user" : String) ≠ "assistant")]
          exact hop
        exact hres
      · rw [if_neg h3]
        obtain ⟨r, hr⟩ : ∃ r, st.role = some r := by
          cases hsr : st.role with
          | none => exact absurd hsr h3
          | some r => exact ⟨r, rfl⟩
        have hline_ok : fenceFor r line = false := by
          by_cases hra : r = "assistant"
          · subst hra
            unfold fenceFor
            rw [if_pos rfl]
            cases hx : isCloseFence line with
            | false => rfl
            | true => exact absurd ⟨hr, hx⟩ h2
          · unfold fenceFor
            rw [if_neg hra]
            cases hx : isOpenFence line with
            | false => rfl
            | true =>
                refine absurd ⟨?_, hx⟩ h1
                rw [hr]
                intro hy
                injection hy with hy'
                exact hra hy'
        refine ⟨hmsgs, hrole, fun _ => fun hx => h3 hx, ?_⟩
        intro c hcc
        have hcc2 : appOpt st.content line = c := by
          injection hcc with h
        rw [← hcc2, hr]
        refine rawGood_appOpt r st.content line hnl ?_ hline_ok
        intro c0 hc0
        have := hraw c0 hc0
        rw [hr] at this
        exact this

theorem foldl_inv (ls : List (List Char)) (st : ParseState) (hnl : ∀ l ∈ ls, '\n' ∉ l)
    (hInv : ParseInv st) : ParseInv (ls.foldl stepLine st) := by
  induction ls generalizing st with
  | nil => exact hInv
  | cons l ls ih =>
      rw [List.foldl_cons]
      exact ih _ (fun x hx => hnl x (List.mem_cons_of_mem l hx))
        (stepLine_inv st l (hnl l (List.mem_cons_self l ls)) hInv)

theorem initState_inv : ParseInv initState :=
  ⟨fun m hm => absurd hm (List.not_mem_nil m), fun r hr => Option.noConfusion hr,
    fun h => absurd rfl h, fun c hc => Option.noConfusion hc⟩

theorem finalState_inv (md : List Char) : ParseInv (finalState md) :=
  foldl_inv (splitLines md) initState
    (fun l hl => no_newline_of_mem_splitLines md l hl) initState_inv

theorem finalize_good (st : ParseState) (hInv : ParseInv st) (msgs : List Message)
    (h : finalize st = .ok msgs) : ∀ m ∈ msgs, GoodMsg m := by
  have hmsgs := hInv.1
  obtain ⟨ms, ro, co⟩ := st
  cases co with
  | none =>
      cases ro with
      | none =>
          injection h with h'
          rw [← h']
          exact hmsgs
      | some r =>
          injection h with h'
          rw [← h']
          exact hmsgs
  | some c =>
      cases ro with
      | none =>
          injection h with h'
          rw [← h']
          exact hmsgs
      | some r =>
          by_cases hra : r = "assistant"
          · subst hra
            simp [finalize] at h
          · simp only [finalize, if_neg hra] at h
            injection h with h'
            rw [← h']
            by_cases hn : sanitizeContent c = []
            · rw [updateMessages_some_nil ⟨ms, some r, some c⟩ c rfl hn]
              exact hmsgs
            · rw [updateMessages_some_push ⟨ms, some r, some c⟩ c rfl hn]
              intro m hm
              rcases List.mem_append.mp hm with h1 | h2
              · exact hmsgs m h1
              · simp at h2
                rw [h2]
                exact push_good ⟨ms, some r, some c⟩ c hInv rfl hn

theorem gptMessages_good (md : List Char) (msgs : List Message)
    (h : gptMessages md = .ok msgs) : ∀ m ∈ msgs, GoodMsg m :=
  finalize_good _ (finalState_inv md) msgs h

/-! ### Re-parsing serialized content -/

theorem stepLine_content (st : ParseState) (line : List Char) (r : String)
    (hr : st.role = some r)
    (hop : ¬ (r ≠ "assistant" ∧ isOpenFence line = true))
    (hcl : ¬ (r = "assistant" ∧ isCloseFence line = true)) :
    stepLine st line = { st with content := some (appOpt st.content line) } := by
  unfold stepLine
  rw [if_neg (by rw [hr]; intro hx; exact hop ⟨fun hy => hx.1 (by rw [hy]), hx.2⟩)]
  rw [if_neg (by rw [hr]; intro hx; exact hcl ⟨by injection hx.1 with h, hx.2⟩)]
  rw [if_neg (by rw [hr]; exact fun hx => Option.noConfusion hx)]

theorem foldl_content_run (ls : List (List Char)) (st : ParseState) (r : String) (x : List Char)
    (hr : st.role = some r) (hx : st.content = some x)
    (hok : ∀ l ∈ ls, ¬ (r ≠ "assistant" ∧ isOpenFence l = true)
      ∧ ¬ (r = "assistant" ∧ isCloseFence l = true)) :
    ls.foldl stepLine st
      = { st with content := some (ls.foldl (fun c l => appOpt (some c) l) x) } := by
  induction ls generalizing st x with
  | nil =>
      rw [List.foldl_nil, List.foldl_nil, ← hx]
  | cons l ls ih =>
      rw [List.foldl_cons, List.foldl_cons]
      rw [stepLine_content st l r hr (hok l (List.mem_cons_self l ls)).1
        (hok l (List.mem_cons_self l ls)).2]
      rw [hx]
      exact ih { st with content := some (appOpt (some x) l) } (appOpt (some x) l) hr rfl
        (fun u hu => hok u (List.mem_cons_of_mem l hu))

/-- Rebuild a string from its second and later lines. -/
def joinTail (ls : List (List Char)) : List Char :=
  (ls.map (fun l => '\n' :: l)).join

theorem joinTail_cons (l : List Char) (ls : List (List Char)) :
    joinTail (l :: ls) = '\n' :: (l ++ joinTail ls) := by
  simp [joinTail]

theorem foldl_appOpt_ne_nil (ls : List (List Char)) (x : List Char) (hx : x ≠ []) :
    ls.foldl (fun c l => appOpt (some c) l) x = x ++ joinTail ls := by
  induction ls generalizing x with
  | nil => simp [joinTail]
  | cons l ls ih =>
      rw [List.foldl_cons]
      have happ : appOpt (some x) l = x ++ '\n' :: l := by
        show (if x ≠ [] then x ++ '\n' :: l else l) = _
        rw [if_pos hx]
      rw [happ, ih (x ++ '\n' :: l) (by simp), joinTail_cons]
      simp

theorem splitLines_head_join (s : List Char) :
    (splitLines s).headD [] ++ joinTail (splitLines s).tail = s := by
  induction s with
  | nil => simp [splitLines, joinTail]
  | cons c cs ih =>
      by_cases hc : c = '\n'
      · subst hc
        rw [splitLines_cons_newline]
        obtain ⟨hh, t, hht⟩ := exists_cons_splitLines cs
        rw [hht] at ih ⊢
        simp only [List.headD_cons, List.tail_cons] at ih ⊢
        rw [List.nil_append, joinTail_cons, ih]
      · rw [splitLines_cons_of_ne c cs hc]
        simp only [List.headD_cons, List.tail_cons]
        rw [List.cons_append, ih]

theorem headD_splitLines_ne_nil (s : List Char) (hs : s ≠ []) (hh : s.headD ' ' ≠ '\n') :
    (splitLines s).headD [] ≠ [] := by
  cases s with
  | nil => exact absurd rfl hs
  | cons c cs =>
      have hc : c ≠ '\n' := by simpa using hh
      rw [splitLines_cons_of_ne c cs hc]
      simp

theorem reparse_content_fold (c : List Char) (hsan : sanitizeContent c = c) (hne : c ≠ []) :
    (splitLines c).foldl (fun x l => appOpt (some x) l) [] = c := by
  obtain ⟨h, t, hht⟩ := exists_cons_splitLines c
  have hhead : c.headD ' ' ≠ '\n' := by
    have hnw : jsWhitespace (c.headD ' ') = false := by
      conv_lhs => rw [← hsan]
      exact sanitize_headD_not_ws c (by rw [hsan]; exact hne)
    intro hx
    rw [hx] at hnw
    exact absurd hnw (by decide)
  have hh_ne : h ≠ [] := by
    have hx := headD_splitLines_ne_nil c hne hhead
    rw [hht] at hx
    simpa using hx
  rw [hht, List.foldl_cons]
  have h1 : appOpt (some []) h = h := by
    show (if ([] : List Char) ≠ [] then [] ++ '\n' :: h else h) = h
    rw [if_neg (by simp)]
  rw [h1, foldl_appOpt_ne_nil t h hh_ne]
  have hj := splitLines_head_join c
  rw [hht] at hj
  simpa using hj

theorem finalize_user (ms : List Message) (c : List Char) :
    finalize ⟨ms, some "user", some c⟩
      = .ok (updateMessages ⟨ms, some "user", some c⟩).messages := by
  simp [finalize]

theorem finalize_assistant_some (ms : List Message) (c : List Char) :
    finalize ⟨ms, some "assistant", some c⟩ = .error "buddy code block has no end" := by
  simp [finalize]

theorem finalize_content_none (ms : List Message) (ro : Option String) :
    finalize ⟨ms, ro, none⟩ = .ok ms := by
  cases ro <;> rfl

theorem reparse_user (c : List Char) (hsan : sanitizeContent c = c) (hne : c ≠ [])
    (hop : ∀ l ∈ splitLines c, isOpenFence l = false) :
    gptMessages ('\n' :: c) = .ok [⟨"user", c⟩] := by
  unfold gptMessages finalState
  rw [splitLines_cons_newline, List.foldl_cons]
  have hstep0 : stepLine initState [] = ⟨[], some "user", some []⟩ := by decide
  rw [hstep0]
  rw [foldl_content_run (splitLines c) ⟨[], some "user", some []⟩ "user" [] rfl rfl
    (fun l hl => ⟨fun hx => by rw [hop l hl] at hx; exact Bool.noConfusion hx.2,
      fun hx => absurd hx.1 (by decide)⟩)]
  rw [reparse_content_fold c hsan hne]
  show finalize ⟨[], some "user", some c⟩ = .ok [⟨"user", c⟩]
  rw [finalize_user]
  rw [updateMessages_some_push ⟨[], some "user", some c⟩ c rfl (by rw [hsan]; exact hne)]
  rw [hsan]
  rfl

theorem reparse_assistant (c : List Char) (hsan : sanitizeContent c = c) (hne : c ≠ [])
    (hcl : ∀ l ∈ splitLines c, isCloseFence l = false) :
    gptMessages ('\n' :: ("```buddy".data ++ '\n' :: (c ++ '\n' :: "```".data)))
      = .ok [⟨"assistant", c⟩] := by
  unfold gptMessages finalState
  rw [splitLines_cons_newline, splitLines_append,
    splitLines_no_newline ("```buddy".data) (by decide),
    splitLines_append, splitLines_no_newline ("```".data) (by decide)]
  rw [List.foldl_cons]
  have hstep0 : stepLine initState [] = ⟨[], some "user", some []⟩ := by decide
  rw [hstep0]
  show finalize (List.foldl stepLine ⟨[], some "user", some []⟩
    ("```buddy".data :: (splitLines c ++ ["```".data]))) = _
  rw [List.foldl_cons]
  have hstep1 : stepLine ⟨[], some "user", some []⟩ ("```buddy".data)
      = ⟨[], some "assistant", some []⟩ := by decide
  rw [hstep1, List.foldl_append]
  rw [foldl_content_run (splitLines c) ⟨[], some "assistant", some []⟩ "assistant" [] rfl rfl
    (fun l hl => ⟨fun hx => absurd rfl hx.1,
      fun hx => by rw [hcl l hl] at hx; exact Bool.noConfusion hx.2⟩)]
  rw [reparse_content_fold c hsan hne]
  show finalize (List.foldl stepLine ⟨[], some "assistant", some c⟩ ["```".data]) = _
  rw [List.foldl_cons, List.foldl_nil]
  have hstep2 : stepLine ⟨[], some "assistant", some c⟩ ("```".data)
      = ⟨[⟨"assistant", c⟩], some "user", none⟩ := by
    unfold stepLine
    rw [if_neg (by intro hx; exact hx.1 rfl)]
    rw [if_pos ⟨rfl, by decide⟩]
    rw [updateMessages_some_push ⟨[], some "assistant", some c⟩ c rfl (by rw [hsan]; exact hne)]
    rw [hsan]
    rfl
  rw [hstep2]
  exact finalize_content_none _ _

/-! ### Claim C9 — `sanitizeContent` trims exactly and is idempotent -/

/-- C9: `sanitizeContent` removes exactly the leading and trailing whitespace
of its argument (the removed pieces are whitespace-only, the kept middle is
unchanged and, when non-empty, starts and ends with a non-whitespace
character), is total, and is idempotent. -/
theorem buddy_C9_sanitize_trim_idempotent (s : List Char) :
    (∃ a b, s = a ++ sanitizeContent s ++ b ∧ wsOnly a ∧ wsOnly b) ∧
    (sanitizeContent s = [] ∨
      (jsWhitespace ((sanitizeContent s).headD ' ') = false ∧
       jsWhitespace ((sanitizeContent s).reverse.headD ' ') = false)) ∧
    sanitizeContent (sanitizeContent s) = sanitizeContent s := by
  refine ⟨sanitize_decomp s, ?_, sanitize_idem s⟩
  by_cases h : sanitizeContent s = []
  · exact Or.inl h
  · exact Or.inr ⟨sanitize_headD_not_ws s h, sanitize_reverse_headD_not_ws s h⟩

/-! ### Claim C8 — empty and whitespace-only documents -/

/-- C8: the empty document and a whitespace-only document both parse
successfully to the empty turn sequence. -/
theorem buddy_C8_empty_whitespace :
    gptMessages "".data = .ok [] ∧ gptMessages "   \n\n  ".data = .ok [] :=
  ⟨rfl, rfl⟩

/-! ### Claim C7 — adjacent assistant blocks with a blank separator -/

/-- C7: two assistant blocks separated by a blank line parse to exactly the
two assistant turns, with no empty user turn between them. -/
theorem buddy_C7_adjacent_assistant_blocks :
    gptMessages ("```buddy\nA\n```\n\n```buddy\nB\n```".data)
      = .ok [⟨"assistant", "A".data⟩, ⟨"assistant", "B".data⟩] :=
  rfl

/-! ### Claim C6 — the serializer -/

/-- C6: `messageToMd` emits, for an assistant turn, a leading newline, the
open-fence line, a newline, the raw content, a newline and the close fence
(with nothing after it); for any other role, a leading newline followed by
the raw content.  It is a total function. -/
theorem buddy_C6_serializer (m : Message) :
    (m.role = "assistant" →
      messageToMd m = '\n' :: ("```buddy".data ++ '\n' :: (m.content ++ '\n' :: "```".data))) ∧
    (m.role ≠ "assistant" → messageToMd m = '\n' :: m.content) := by
  constructor
  · intro h
    unfold messageToMd
    rw [if_pos h]
  · intro h
    unfold messageToMd
    rw [if_neg h]

/-- Witness for C6 at a concrete user turn. -/
theorem buddy_C6_serializer_witness :
    messageToMd ⟨"user", ['h', 'i']⟩ = ['\n', 'h', 'i'] := by
  rw [(buddy_C6_serializer ⟨"user", ['h', 'i']⟩).2 (by decide)]

/-! ### Claim C5 — fence recognition -/

/-- C5: a line is an open fence exactly when it is three backticks, the tag
`buddy`, and trailing whitespace only; a close fence exactly when it is
three backticks and trailing whitespace only.  Outside an assistant block a
line switches the parser into the assistant state iff it is an open fence;
inside an assistant block a line leaves the assistant state iff it is a
close fence; and an open-fence line seen inside an assistant block is
appended to the block's content as ordinary text. -/
theorem buddy_C5_fence_recognition (st : ParseState) (line : List Char) :
    (isOpenFence line = true ↔ ∃ w, line = "```buddy".data ++ w ∧ wsOnly w) ∧
    (isCloseFence line = true ↔ ∃ w, line = "```".data ++ w ∧ wsOnly w) ∧
    (st.role ≠ some "assistant" →
      ((stepLine st line).role = some "assistant" ↔ isOpenFence line = true)) ∧
    (st.role = some "assistant" →
      ((stepLine st line).role = some "user" ↔ isCloseFence line = true)) ∧
    (st.role = some "assistant" → isOpenFence line = true →
      stepLine st line = { st with content := some (appOpt st.content line) }) := by
  refine ⟨isOpenFence_iff line, isCloseFence_iff line, ?_, ?_, ?_⟩
  · intro hr
    constructor
    · intro h
      cases hop : isOpenFence line with
      | true => rfl
      | false =>
          exfalso
          unfold stepLine at h
          rw [if_neg (fun hx => by rw [hop] at hx; exact Bool.noConfusion hx.2)] at h
          rw [if_neg (fun hx => hr hx.1)] at h
          by_cases h3 : st.role = none
          · rw [if_pos h3] at h
            injection h with h'
            exact absurd h' (by decide)
          · rw [if_neg h3] at h
            exact hr h
    · intro hop
      unfold stepLine
      rw [if_pos ⟨hr, hop⟩]
  · intro hr
    constructor
    · intro h
      cases hcl : isCloseFence line with
      | true => rfl
      | false =>
          exfalso
          unfold stepLine at h
          rw [if_neg (fun hx => hx.1 hr)] at h
          rw [if_neg (fun hx => by rw [hcl] at hx; exact Bool.noConfusion hx.2)] at h
          rw [if_neg (by rw [hr]; exact fun hx => Option.noConfusion hx)] at h
          have h2 : st.role = some "user" := h
          rw [hr] at h2
          injection h2 with h'
          exact absurd h' (by decide)
    · intro hcl
      unfold stepLine
      rw [if_neg (fun hx => hx.1 hr)]
      rw [if_pos ⟨hr, hcl⟩]
  · intro hr hop
    exact stepLine_content st line "assistant" hr (fun hx => hx.1 rfl)
      (fun hx => by rw [open_not_close line hop] at hx; exact Bool.noConfusion hx.2)

/-- Witness for C5: an open-fence line inside an open assistant block is
appended to the accumulated content. -/
theorem buddy_C5_fence_recognition_witness :
    stepLine ⟨[], some "assistant", some ['a']⟩ ("```buddy".data)
      = ⟨[], some "assistant", some ('a' :: '\n' :: "```buddy".data)⟩ := by
  rw [(buddy_C5_fence_recognition ⟨[], some "assistant", some ['a']⟩
    ("```buddy".data)).2.2.2.2 rfl (by decide)]
  rfl

/-! ### Claim C4 — emitted turns are non-empty and sanitized -/

/-- C4: every turn in a successful parse has non-empty content that is
fixed by `sanitizeContent` (no leading or trailing whitespace). -/
theorem buddy_C4_content_nonempty_sanitized (md : List Char) (msgs : List Message)
    (h : gptMessages md = .ok msgs) :
    ∀ m ∈ msgs, m.content ≠ [] ∧ sanitizeContent m.content = m.content := by
  intro m hm
  obtain ⟨_, hsan, hne, _⟩ := gptMessages_good md msgs h m hm
  exact ⟨hne, hsan⟩

/-- Witness for C4 at a concrete document. -/
theorem buddy_C4_content_nonempty_sanitized_witness :
    (⟨"user", "hi".data⟩ : Message).content ≠ [] ∧
      sanitizeContent (⟨"user", "hi".data⟩ : Message).content
        = (⟨"user", "hi".data⟩ : Message).content :=
  buddy_C4_content_nonempty_sanitized ("hi".data) [⟨"user", "hi".data⟩] rfl
    ⟨"user", "hi".data⟩ (List.mem_singleton.mpr rfl)

/-! ### Claim C10 — end of input with a null accumulator -/

/-- C10: if end of input is reached with a null content accumulator, the
parse succeeds with the messages flushed so far, even when the parser is
inside an open assistant block — the unterminated-block check only fires
for a non-null accumulator. -/
theorem buddy_C10_null_content_eoi (md : List Char) (h : (finalState md).content = none) :
    gptMessages md = .ok (finalState md).messages := by
  unfold gptMessages
  rw [show finalState md
    = ⟨(finalState md).messages, (finalState md).role, none⟩ from by rw [← h]]
  exact finalize_content_none _ _

/-- Witness for C10: the document `"hello\n```buddy"` ends right after an
open fence, and parses to the single user turn `hello` with no error. -/
theorem buddy_C10_null_content_eoi_witness :
    gptMessages ("hello\n```buddy".data) = .ok [⟨"user", "hello".data⟩] := by
  rw [buddy_C10_null_content_eoi ("hello\n```buddy".data) rfl]
  rfl

/-! ### Claim C1 — the round-trip law -/

/-- C1 (counterexample): the round-trip law fails as stated.  The document
consisting of two spaces followed by the open-fence text produces the user
turn with content `"```buddy"`; serializing that turn and re-parsing does
not yield the turn back — it raises the unterminated-block error, because
the serialized first content line now sits at the start of a line and is
read as an open fence. -/
theorem buddy_C1_roundTrip_counterexample :
    gptMessages ("  ```buddy".data) = .ok [⟨"user", "```buddy".data⟩] ∧
    gptMessages (messageToMd ⟨"user", "```buddy".data⟩)
      = .error "buddy code block has no end" :=
  ⟨rfl, rfl⟩

/-- C1 (amended): the round-trip law holds for every turn produced by the
parser whose first content line is not the fence pattern of its own role
(not an open fence for a user turn, not a close fence for an assistant
turn): re-parsing the serialization of such a turn yields exactly that
turn. -/
theorem buddy_C1_roundTrip_amended (md : List Char) (msgs : List Message) (t : Message)
    (hp : gptMessages md = .ok msgs) (ht : t ∈ msgs)
    (hfirst : fenceFor t.role ((splitLines t.content).headD []) = false) :
    gptMessages (messageToMd t) = .ok [t] := by
  obtain ⟨hrole, hsan, hne, htail⟩ := gptMessages_good md msgs hp t ht
  have hall : ∀ l ∈ splitLines t.content, fenceFor t.role l = false := by
    obtain ⟨h, tl, hht⟩ := exists_cons_splitLines t.content
    intro l hl
    rw [hht] at hl
    rcases List.mem_cons.mp hl with h1 | h2
    · rw [h1]
      have hh : (splitLines t.content).headD [] = h := by rw [hht]; rfl
      rw [← hh]
      exact hfirst
    · refine htail l ?_
      rw [hht, List.tail_cons]
      exact h2
  rcases hrole with hu | ha
  · have hmd : messageToMd t = '\n' :: t.content := by
      unfold messageToMd
      rw [if_neg (by rw [hu]; decide)]
    rw [hmd]
    rw [reparse_user t.content hsan hne (fun l hl => by
      have hx := hall l hl
      rw [hu] at hx
      unfold fenceFor at hx
      rwa [if_neg (by decide : ("user" : String) ≠ "assistant")] at hx)]
    rw [show (⟨"user", t.content⟩ : Message) = t from by rw [← hu]]
  · have hmd : messageToMd t
        = '\n' :: ("```buddy".data ++ '\n' :: (t.content ++ '\n' :: "```".data)) := by
      unfold messageToMd
      rw [if_pos ha]
    rw [hmd]
    rw [reparse_assistant t.content hsan hne (fun l hl => by
      have hx := hall l hl
      rw [ha] at hx
      unfold fenceFor at hx
      rwa [if_pos rfl] at hx)]
    rw [show (⟨"assistant", t.content⟩ : Message) = t from by rw [← ha]]

/-- Witness for the amended C1 at a concrete parsed turn. -/
theorem buddy_C1_roundTrip_amended_witness :
    gptMessages (messageToMd ⟨"user", "hi".data⟩) = .ok [⟨"user", "hi".data⟩] :=
  buddy_C1_roundTrip_amended ("hi".data) [⟨"user", "hi".data⟩] ⟨"user", "hi".data⟩ rfl
    (List.mem_singleton.mpr rfl) (by decide)

/-! ### Claim C2 — the unterminated-block error -/

/-- C2 (counterexample): a document that is a single open-fence line opens
an assistant block that is never closed, yet the parse succeeds with the
empty sequence instead of failing. -/
theorem buddy_C2_unterminated_counterexample :
    gptMessages ("```buddy".data) = .ok [] ∧
    isOpenFence ("```buddy".data) = true ∧
    (splitLines ("```buddy".data)).any isCloseFence = false := by
  refine ⟨rfl, by decide, by decide⟩

/-- C2 (amended): the parse fails with the unterminated-block error exactly
when end of input is reached with the parser in the assistant state and a
non-null content accumulator; an open assistant block whose accumulator is
still null at end of input is silently accepted. -/
theorem buddy_C2_unterminated_error_iff (md : List Char) :
    gptMessages md = .error "buddy code block has no end"
      ↔ ((finalState md).role = some "assistant" ∧ (finalState md).content ≠ none) := by
  unfold gptMessages
  cases hst : finalState md with
  | mk ms ro co =>
      cases co with
      | none =>
          rw [finalize_content_none]
          constructor
          · intro hx
            exact Except.noConfusion hx
          · rintro ⟨_, hc⟩
            exact absurd rfl hc
      | some c =>
          cases ro with
          | none =>
              constructor
              · intro hx
                exact Except.noConfusion hx
              · rintro ⟨hr, _⟩
                exact Option.noConfusion hr
          | some r =>
              by_cases hra : r = "assistant"
              · subst hra
                rw [finalize_assistant_some]
                simp
              · constructor
                · intro hx
                  rw [show finalize ⟨ms, some r, some c⟩
                      = .ok (updateMessages ⟨ms, some r, some c⟩).messages from by
                    simp [finalize, hra]] at hx
                  exact Except.noConfusion hx
                · rintro ⟨hr, _⟩
                  injection hr with hr'
                  exact absurd hr' hra

/-! ### Claim C3 — adjacent turns and role merging -/

/-- C3 (counterexample): a successful parse can contain two adjacent turns
with the same role — two assistant blocks in direct succession each emit an
assistant turn with nothing between them. -/
theorem buddy_C3_adjacent_counterexample :
    gptMessages ("A\n```buddy\nX\n```\n```buddy\nY\n```".data)
      = .ok [⟨"user", "A".data⟩, ⟨"assistant", "X".data⟩, ⟨"assistant", "Y".data⟩] ∧
    (⟨"assistant", "X".data⟩ : Message).role = (⟨"assistant", "Y".data⟩ : Message).role :=
  ⟨rfl, rfl⟩

theorem sanitize_cons_ws (c : Char) (s : List Char) (h : jsWhitespace c = true) :
    sanitizeContent (c :: s) = sanitizeContent s := by
  unfold sanitizeContent
  rw [List.dropWhile_cons, if_pos h]

theorem sanitize_foldl_app (ls : List (List Char)) (x : List Char) :
    sanitizeContent (ls.foldl (fun c l => appOpt (some c) l) x)
      = sanitizeContent (x ++ joinTail ls) := by
  by_cases hx : x = []
  · subst hx
    rw [List.nil_append]
    induction ls with
    | nil => rfl
    | cons l ls ih =>
        rw [List.foldl_cons]
        have happ : appOpt (some ([] : List Char)) l = l := by
          show (if ([] : List Char) ≠ [] then [] ++ '\n' :: l else l) = l
          rw [if_neg (by simp)]
        rw [happ, joinTail_cons, sanitize_cons_ws '\n' _ (by decide)]
        by_cases hl : l = []
        · subst hl
          rw [List.nil_append]
          exact ih
        · rw [foldl_appOpt_ne_nil ls l hl]
  · rw [foldl_appOpt_ne_nil ls x hx]

/-- C3 (amended): the no-adjacent-same-role invariant fails in general (see
the counterexample); what does hold is the merging fact underlying it — a
document containing no open-fence line parses to exactly one user turn
whose content is the sanitized whole document, or to no turn at all when
the document sanitizes to nothing. -/
theorem buddy_C3_merge_without_fences (md : List Char)
    (h : ∀ l ∈ splitLines md, isOpenFence l = false) :
    gptMessages md
      = .ok (if sanitizeContent md = [] then []
             else [⟨"user", sanitizeContent md⟩]) := by
  obtain ⟨l1, rest, hsplit⟩ := exists_cons_splitLines md
  have hop1 : isOpenFence l1 = false := h l1 (by rw [hsplit]; exact List.mem_cons_self _ _)
  have hstep1 : stepLine initState l1 = ⟨[], some "user", some l1⟩ := by
    unfold stepLine
    rw [if_neg (fun hx => by rw [hop1] at hx; exact Bool.noConfusion hx.2)]
    rw [if_neg (fun hx => Option.noConfusion hx.1)]
    rw [if_pos (show initState.role = none from rfl)]
    rfl
  have hrun : finalState md
      = ⟨[], some "user", some (rest.foldl (fun c l => appOpt (some c) l) l1)⟩ := by
    unfold finalState
    rw [hsplit, List.foldl_cons, hstep1]
    rw [foldl_content_run rest ⟨[], some "user", some l1⟩ "user" l1 rfl rfl
      (fun l hl => ⟨fun hx => by
          rw [h l (by rw [hsplit]; exact List.mem_cons_of_mem l1 hl)] at hx
          exact Bool.noConfusion hx.2,
        fun hx => absurd hx.1 (by decide)⟩)]
  have hacc : sanitizeContent (rest.foldl (fun c l => appOpt (some c) l) l1)
      = sanitizeContent md := by
    rw [sanitize_foldl_app rest l1]
    have hj := splitLines_head_join md
    rw [hsplit] at hj
    simp only [List.headD_cons, List.tail_cons] at hj
    rw [hj]
  unfold gptMessages
  rw [hrun]
  by_cases hn : sanitizeContent md = []
  · rw [if_pos hn, finalize_user]
    rw [updateMessages_some_nil
      ⟨[], some "user", some (rest.foldl (fun c l => appOpt (some c) l) l1)⟩
      (rest.foldl (fun c l => appOpt (some c) l) l1) rfl (by rw [hacc]; exact hn)]
  · rw [if_neg hn, finalize_user]
    rw [updateMessages_some_push
      ⟨[], some "user", some (rest.foldl (fun c l => appOpt (some c) l) l1)⟩
      (rest.foldl (fun c l => appOpt (some c) l) l1) rfl (by rw [hacc]; exact hn)]
    rw [hacc]
    rfl

/-- Witness for the amended C3 at a concrete fence-free document: the two
lines merge into the single user turn holding the whole document. -/
theorem buddy_C3_merge_without_fences_witness :
    gptMessages ("a\nb".data) = .ok [⟨"user", "a\nb".data⟩] := by
  rw [buddy_C3_merge_without_fences ("a\nb".data) (by decide)]
  rfl
